import Mathlib

/-!
Verification of the optimal-matching engine of factRuEval-2016
(`scripts/dialent/common/evalmatrix.py`): a shallow embedding of
`TagData`, `EvaluationMatrix.__init__`, `findSolution`, `_recursiveSearch`,
`_findMatches`, `_evaluate` and `_reduce`, with scores embedded as rationals.
Python's `None`-return and raised exceptions are both failure outcomes of
`findSolution`; results are threaded through `Except`/`Option` so that a
crash (`TypeError` on `res[0]` or on tuple unpacking) is `.error ()` and a
plain `None` return inside the recursion is `.ok none`.
-/

/-- An annotated object: a category tag and an id used for sorting
(`x.tag`, `x.id` in the source). -/
structure Obj where
  tag : String
  id : Int
deriving DecidableEq

instance : Inhabited Obj := ⟨⟨"", 0⟩⟩

/-- The external priority/quality calculator (`calc` in the source). -/
structure Calculator where
  priority : Obj → Obj → ℚ
  quality : Obj → Obj → ℚ

/-- `EvaluationMatrix.allowed_tags = ['per', 'loc', 'org', 'locorg']`. -/
def allowed_tags : List String := ["per", "loc", "org", "locorg"]

/-- `TagData.objects`: the objects of `object_list` carrying `tag`, sorted by id.
Python's `sorted(..., key=lambda x: x.id)` is a stable sort, and a stable sort's
output is unique, so the stable `insertionSort` computes the same list. -/
def tagObjects (tag : String) (object_list : List Obj) : List Obj :=
  (object_list.filter (fun x => x.tag == tag)).insertionSort (fun a b => a.id ≤ b.id)

/-- `TagData.start()` after the offset-finalization loop of `__init__`:
the summed sizes of the tag blocks preceding `tag` in `allowed_tags`. -/
def tagStartIn (l : List Obj) (tag : String) : ℕ :=
  ((allowed_tags.takeWhile (fun t => t != tag)).map (fun t => (tagObjects t l).length)).sum

/-- `TagData.end()`: `start + size`. -/
def tagEndIn (l : List Obj) (tag : String) : ℕ :=
  tagStartIn l tag + (tagObjects tag l).length

/-- The reordered collection built by `__init__`: tag blocks laid end to end in
`allowed_tags` order (`self.std` / `self.test`). -/
def reorder (l : List Obj) : List Obj :=
  (allowed_tags.map (fun tag => tagObjects tag l)).flatten

/-- The state of a constructed `EvaluationMatrix`: the validated mode, the two
input collections and the calculator.  All remaining attributes of the Python
object are pure functions of these fields. -/
structure EM where
  mode : String
  std0 : List Obj
  test0 : List Obj
  calcu : Calculator

/-- `EvaluationMatrix.__init__`: the `assert(mode == 'regular' or mode == 'simple')`
guard makes construction fallible; on a valid mode every derived attribute is
determined by the stored fields. -/
def mkEM (std test : List Obj) (calcu : Calculator) (mode : String) : Option EM :=
  if mode = "regular" ∨ mode = "simple" then some ⟨mode, std, test, calcu⟩ else none

/-- `self.std`: the reordered standard collection. -/
def EM.std (em : EM) : List Obj := reorder em.std0

/-- `self.test`: the reordered test collection. -/
def EM.test (em : EM) : List Obj := reorder em.test0

/-- `self.n_std`. -/
def EM.n_std (em : EM) : ℕ := em.std.length

/-- `self.n_test`. -/
def EM.n_test (em : EM) : ℕ := em.test.length

/-- `self.m[i][j] = self.calc.priority(x, y)` over the reordered collections. -/
def EM.m (em : EM) (i j : ℕ) : ℚ :=
  em.calcu.priority (em.std.getD i default) (em.test.getD j default)

/-- `self.s[tag].size`. -/
def EM.sSize (em : EM) (tag : String) : ℕ := (tagObjects tag em.std0).length

/-- `self.t[tag].size`. -/
def EM.tSize (em : EM) (tag : String) : ℕ := (tagObjects tag em.test0).length

/-- `self.s[tag].start()`. -/
def EM.sStart (em : EM) (tag : String) : ℕ := tagStartIn em.std0 tag

/-- `self.s[tag].end()`. -/
def EM.sEnd (em : EM) (tag : String) : ℕ := tagEndIn em.std0 tag

/-- Modelled from the spec: `Metrics` of `dialent.common.metrics` is imported by
`evalmatrix.py` but its source is not in the tree.  The spec defines the value as
`precision = tp/n_test` (0 if `n_test = 0`), `recall = tp/n_std` (0 if
`n_std = 0`), and `f1 = 0` if `tp = 0`, else the harmonic mean of precision and
recall. -/
structure Metrics where
  precision : ℚ
  «recall» : ℚ
  f1 : ℚ
deriving DecidableEq

/-- Modelled from the spec: `Metrics.createSimple(tp, n_std, n_test)` per the
formulas of spec §3. -/
def Metrics.createSimple (tp : ℚ) (n_std n_test : ℕ) : Metrics :=
  let p : ℚ := if n_test = 0 then 0 else tp / n_test
  let r : ℚ := if n_std = 0 then 0 else tp / n_std
  ⟨p, r, if tp = 0 then 0 else 2 * p * r / (p + r)⟩

/-- The loop `for pair in subset: tp += self.calc.quality(...)` of `_evaluate`. -/
def tpOf (em : EM) (pairs : List (ℕ × ℕ)) : ℚ :=
  pairs.foldl (fun a p => a + em.calcu.quality (em.std.getD p.1 default) (em.test.getD p.2 default)) 0

/-- `EvaluationMatrix._reduce`: the sub-matching whose standard indices fall in
the given tag's range. -/
def reduceM (em : EM) (matching : List (ℕ × ℕ)) (tag : String) : List (ℕ × ℕ) :=
  matching.filter (fun p => decide (em.sStart tag ≤ p.1) && decide (p.1 < em.sEnd tag))

/-- `EvaluationMatrix._evaluate(pairs, tag_filter)`. -/
def evaluateM (em : EM) (pairs : List (ℕ × ℕ)) (tag_filter : String) : Metrics :=
  if tag_filter ∈ allowed_tags then
    Metrics.createSimple (tpOf em (reduceM em pairs tag_filter)) (em.sSize tag_filter) (em.tSize tag_filter)
  else
    Metrics.createSimple (tpOf em pairs) em.n_std em.n_test

/-- Overall F1 of a matching (`self._evaluate(pairs).f1` with the default
empty tag filter). -/
def f1Of (em : EM) (pairs : List (ℕ × ℕ)) : ℚ := (evaluateM em pairs "").f1

/-- `EvaluationMatrix._findMatches`: perfect matches if any exist, otherwise all
nonzero-priority matches. -/
def findMatches (em : EM) (s_index : ℕ) (test : List ℕ) : List ℕ :=
  let perfect_matches := test.filter (fun t => em.m s_index t == 1)
  let «matches» := test.filter (fun t => em.m s_index t != 0)
  if perfect_matches.length > 0 then perfect_matches else «matches»

/-- The `skip_test_object` flag of `_recursiveSearch`: some `k` in the remaining
standard pool has `m[k, t] == 1` while `m[curr, t] < 1`. -/
def skipTest (em : EM) (std : List ℕ) (curr t : ℕ) : Bool :=
  std.any (fun k => em.m k t == 1 && decide (em.m curr t < 1))

/-- The final `alt_count` of `_recursiveSearch` for candidate `t`: the number of
remaining standard indices with nonzero priority against `t`. -/
def altCount (em : EM) (std : List ℕ) (t : ℕ) : ℕ :=
  (std.filter (fun k => em.m k t != 0)).length

/-- The final `pair_max_alternatives` of `_recursiveSearch`: the maximum
`alt_count` over all candidates. -/
def pmaOf (em : EM) (std : List ℕ) (cands : List ℕ) : ℕ :=
  (cands.map (altCount em std)).foldl max 0

/-- The guard of the skip branch of `_recursiveSearch`:
`possible_pairs_count == 0 or possible_pairs_count == 1 and pair_max_alternatives > 1`. -/
def skipGuardB (em : EM) (std : List ℕ) (cands : List ℕ) : Bool :=
  cands.length == 0 || (cands.length == 1 && decide (1 < pmaOf em std cands))

instance decEqExcept {ε α : Type} [DecidableEq ε] [DecidableEq α] : DecidableEq (Except ε α) :=
  fun a b => match a, b with
  | .error u, .error v =>
    if h : u = v then isTrue (by rw [h]) else isFalse (fun hc => h (Except.error.inj hc))
  | .ok x, .ok y =>
    if h : x = y then isTrue (by rw [h]) else isFalse (fun hc => h (Except.ok.inj hc))
  | .error _, .ok _ => isFalse (fun hc => Except.noConfusion hc)
  | .ok _, .error _ => isFalse (fun hc => Except.noConfusion hc)

/-- A `_recursiveSearch` outcome: `.error ()` models a raised exception,
`.ok none` models a `return None` (a `max_res` that was never set), and
`.ok (some (q, pairs))` a returned `(overall quality, matching)` tuple. -/
def SResult := Except Unit (Option (ℚ × List (ℕ × ℕ)))

instance : DecidableEq SResult :=
  fun a b => decEqExcept a b

/-- The `max_res` update loop of `_recursiveSearch`
(`if max_res is None or res[0] > max_res[0]: max_res = res`), folded over the
branch results in exploration order.  A `None` branch result compared against a
set `max_res` evaluates `res[0]` and raises (`.error`); against an unset
`max_res` the short-circuiting `or` assigns `max_res = None` and continues. -/
def pyFold : List SResult → Option (ℚ × List (ℕ × ℕ)) → SResult
  | [], acc => .ok acc
  | r :: rs, acc =>
    match r, acc with
    | .error e, _ => .error e
    | .ok none, none => pyFold rs none
    | .ok none, some _ => .error ()
    | .ok (some x), none => pyFold rs (some x)
    | .ok (some x), some a => pyFold rs (some (if x.1 > a.1 then x else a))

/-- `EvaluationMatrix._recursiveSearch(std, test, pairs)`. -/
def recursiveSearch (em : EM) : List ℕ → List ℕ → List (ℕ × ℕ) → SResult
  | [], _, pairs => .ok (some ((evaluateM em pairs "").f1, pairs))
  | _ :: _, [], pairs => .ok (some ((evaluateM em pairs "").f1, pairs))
  | curr :: rest, t0 :: ts, pairs =>
    let test := t0 :: ts
    let cands := findMatches em curr test
    let branchResults := (cands.filter (fun t => !skipTest em (curr :: rest) curr t)).map
      (fun t => recursiveSearch em rest (test.erase t) (pairs ++ [(curr, t)]))
    let allResults := branchResults ++
      (if skipGuardB em (curr :: rest) cands then [recursiveSearch em rest test pairs] else [])
    pyFold allResults none

/-- `EvaluationMatrix.findSolution`: unpacking a `None` result raises, so it is
an `.error` as well. -/
def findSolution (em : EM) : Except Unit (List (ℕ × ℕ)) :=
  match recursiveSearch em (List.range em.n_std) (List.range em.n_test) [] with
  | .error e => .error e
  | .ok none => .error ()
  | .ok (some (_, matching)) => .ok matching

/-- Spec wording (§3, Matching): a set of `(std_index, test_index)` pairs, each
index used at most once on each side, indices referring to the reordered arrays. -/
def isInjectivePairing (em : EM) (P : List (ℕ × ℕ)) : Prop :=
  (P.map Prod.fst).Nodup ∧ (P.map Prod.snd).Nodup ∧
  ∀ p ∈ P, p.1 < em.n_std ∧ p.2 < em.n_test

/-- Spec wording: every pair of the matching passes the scorer's
nonzero-priority gate. -/
def respectsGate (em : EM) (P : List (ℕ × ℕ)) : Prop :=
  ∀ p ∈ P, em.m p.1 p.2 ≠ 0

/-- Spec wording (§8, perfect-match mandate): whenever standard `i` and test `j`
have priority exactly 1 and no other object achieves priority 1 with either of
them, the matching contains `(i, j)`. -/
def respectsMandate (em : EM) (P : List (ℕ × ℕ)) : Prop :=
  ∀ i ∈ List.range em.n_std, ∀ j ∈ List.range em.n_test,
    em.m i j = 1 →
    (∀ k ∈ List.range em.n_std, k ≠ i → em.m k j ≠ 1) →
    (∀ j' ∈ List.range em.n_test, j' ≠ j → em.m i j' ≠ 1) →
    (i, j) ∈ P

instance (em : EM) (P : List (ℕ × ℕ)) : Decidable (isInjectivePairing em P) := by
  unfold isInjectivePairing; infer_instance

instance (em : EM) (P : List (ℕ × ℕ)) : Decidable (respectsGate em P) := by
  unfold respectsGate; infer_instance

instance (em : EM) (P : List (ℕ × ℕ)) : Decidable (respectsMandate em P) := by
  unfold respectsMandate; infer_instance

/-- Shorthand for building a tagged object. -/
def mkO (t : String) (i : Int) : Obj := ⟨t, i⟩

/-- Priorities of the scorer of `em1`, keyed by object ids. -/
def prio1 (a b : Int) : ℚ :=
  if a = 1 then (if b = 1 then 1/2 else 0)
  else if a = 2 then 1 else 0

/-- Qualities of the scorer of `em1`, keyed by object ids. -/
def qual1 (a b : Int) : ℚ :=
  if a = 1 ∧ b = 1 then 1
  else if a = 2 ∧ b = 1 then 1
  else if a = 2 ∧ b = 2 then 1/10 else 0

/-- The scorer of `em1`. -/
def calc1 : Calculator := ⟨fun x y => prio1 x.id y.id, fun x y => qual1 x.id y.id⟩

/-- A 2-standard / 2-test instance: standard 0 scores 1/2 against test 0,
standard 1 scores 1 against both test objects. -/
def em1 : EM := ⟨"regular", [mkO "per" 1, mkO "per" 2], [mkO "per" 1, mkO "per" 2], calc1⟩

/-- Priorities of the scorer of `em2c`. -/
def prio2 (a b : Int) : ℚ :=
  if a = 1 ∧ b = 1 then 1 else if a = 2 ∧ b = 1 then 1/2 else 0

/-- Qualities of the scorer of `em2c`: the perfect pair contributes no credit. -/
def qual2 (a b : Int) : ℚ := if a = 2 ∧ b = 1 then 1 else 0

/-- The scorer of `em2c`. -/
def calc2 : Calculator := ⟨fun x y => prio2 x.id y.id, fun x y => qual2 x.id y.id⟩

/-- A 2-standard / 1-test instance with a unique perfect pair (0, 0) of zero
quality and an imperfect competitor of full quality. -/
def em2c : EM := ⟨"regular", [mkO "per" 1, mkO "per" 2], [mkO "per" 1], calc2⟩

/-- Priorities of the scorer of `em4`: standard 0 scores 1/2 against both test
objects, each of which has a distinct perfect partner elsewhere. -/
def prio4 (a b : Int) : ℚ :=
  if a = 1 then 1/2
  else if a = 2 then (if b = 1 then 1 else 0)
  else if a = 3 then (if b = 2 then 1 else 0)
  else 0

/-- The scorer of `em4`. -/
def calc4 : Calculator := ⟨fun x y => prio4 x.id y.id, fun _ _ => 0⟩

/-- A 3-standard / 2-test instance on which every candidate of the head standard
index is dropped by the mandatory-elsewhere pruning while the skip guard stays
false. -/
def em4 : EM := ⟨"regular", [mkO "per" 1, mkO "per" 2, mkO "per" 3], [mkO "per" 1, mkO "per" 2], calc4⟩

/-- A scorer with constant priority and quality 1. -/
def calcW : Calculator := ⟨fun _ _ => 1, fun _ _ => 1⟩

/-- The 1-standard / 1-test instance of spec §8, Scenario A. -/
def emW : EM := ⟨"regular", [mkO "per" 1], [mkO "per" 1], calcW⟩

/-- An instance with an empty standard collection. -/
def emW8 : EM := ⟨"regular", [], [mkO "per" 1], calcW⟩

/-- The complete set of matchings whose evaluation the pruned search reaches: the
base-case `pairs` values of every explored branch, in exploration order. -/
def exploredMatchings (em : EM) : List ℕ → List ℕ → List (ℕ × ℕ) → List (List (ℕ × ℕ))
  | [], _, pairs => [pairs]
  | _ :: _, [], pairs => [pairs]
  | curr :: rest, t0 :: ts, pairs =>
    let test := t0 :: ts
    let cands := findMatches em curr test
    ((cands.filter (fun t => !skipTest em (curr :: rest) curr t)).map
      (fun t => exploredMatchings em rest (test.erase t) (pairs ++ [(curr, t)]))).flatten ++
      (if skipGuardB em (curr :: rest) cands then exploredMatchings em rest test pairs else [])

/-- The relation between a search-step accumulator (`max_res`) and the list of
matchings whose evaluations fed it: an unset `max_res` corresponds to an empty
explored set, and a set one holds a maximal-F1 element of the explored set
together with its F1 value. -/
def AccSpec (em : EM) (acc : Option (ℚ × List (ℕ × ℕ))) (e : List (List (ℕ × ℕ))) : Prop :=
  (acc = none → e = []) ∧
  ∀ q res, acc = some (q, res) → res ∈ e ∧ q = f1Of em res ∧ ∀ P ∈ e, f1Of em P ≤ q

/-- `AccSpec` lifted to a search outcome: exceptions are unconstrained. -/
def ResSpec (em : EM) (r : SResult) (e : List (List (ℕ × ℕ))) : Prop :=
  ∀ acc, r = .ok acc → AccSpec em acc e

instance : IsTotal Obj (fun a b => a.id ≤ b.id) := ⟨fun a b => Int.le_total a.id b.id⟩

instance : IsTrans Obj (fun a b => a.id ≤ b.id) := ⟨fun _ _ _ h1 h2 => le_trans h1 h2⟩

set_option maxRecDepth 1000000

theorem findMatches_subset (em : EM) (s_index : ℕ) (test : List ℕ) :
    ∀ t ∈ findMatches em s_index test, t ∈ test := by
  intro t ht
  simp only [findMatches] at ht
  split at ht <;> exact List.mem_of_mem_filter ht

theorem findMatches_nonzero (em : EM) (s_index : ℕ) (test : List ℕ) :
    ∀ t ∈ findMatches em s_index test, em.m s_index t ≠ 0 := by
  intro t ht
  simp only [findMatches] at ht
  split at ht
  · have h1 : em.m s_index t = 1 := by simpa using List.of_mem_filter ht
    rw [h1]; norm_num
  · simpa using List.of_mem_filter ht

theorem pyFold_ok_some_mem :
    ∀ (rs : List SResult) (acc : Option (ℚ × List (ℕ × ℕ))) (x : ℚ × List (ℕ × ℕ)),
      pyFold rs acc = .ok (some x) → acc = some x ∨ (Except.ok (some x) : SResult) ∈ rs := by
  intro rs
  induction rs with
  | nil =>
    intro acc x h
    left
    exact Except.ok.inj h
  | cons r rs ih =>
    intro acc x h
    cases r with
    | error u => simp [pyFold] at h
    | ok o =>
      cases o with
      | none =>
        cases acc with
        | none =>
          simp only [pyFold] at h
          rcases ih none x h with h' | h'
          · exact absurd h' (by simp)
          · exact Or.inr (List.mem_cons_of_mem _ h')
        | some a => simp [pyFold] at h
      | some y =>
        cases acc with
        | none =>
          simp only [pyFold] at h
          rcases ih (some y) x h with h' | h'
          · have hyx : y = x := Option.some.inj h'
            subst hyx
            exact Or.inr (List.mem_cons_self _ _)
          · exact Or.inr (List.mem_cons_of_mem _ h')
        | some a =>
          simp only [pyFold] at h
          rcases ih _ x h with h' | h'
          · by_cases hgt : y.1 > a.1
            · rw [if_pos hgt] at h'
              have hyx : y = x := Option.some.inj h'
              subst hyx
              exact Or.inr (List.mem_cons_self _ _)
            · rw [if_neg hgt] at h'
              exact Or.inl h'
          · exact Or.inr (List.mem_cons_of_mem _ h')

/-- C9: constructing an `EvaluationMatrix` succeeds exactly for the modes
`regular` and `simple`; any other mode fails the assertion at the very start of
`__init__`, before any state is built. -/
theorem C9_mode_validated (std test : List Obj) (calcu : Calculator) (mode : String) :
    (mkEM std test calcu mode).isSome ↔ (mode = "regular" ∨ mode = "simple") := by
  unfold mkEM
  split <;> simp_all

/-- C5: the mode given to the constructor is stored unchanged, the scorer object
is stored unchanged, and every pairwise priority entry is exactly one scorer
call on the corresponding pair of reordered objects, with no tag-adjacency
logic added by the matrix builder. -/
theorem C5_mode_and_entries (std test : List Obj) (calcu : Calculator) (mode : String) (em : EM)
    (h : mkEM std test calcu mode = some em) :
    em.mode = mode ∧ em.calcu = calcu ∧ em.std = reorder std ∧ em.test = reorder test ∧
    ∀ i j, em.m i j =
      calcu.priority ((reorder std).getD i default) ((reorder test).getD j default) := by
  unfold mkEM at h
  split at h
  · cases h
    exact ⟨rfl, rfl, rfl, rfl, fun i j => rfl⟩
  · cases h

/-- Witness for C5 at a concrete construction. -/
theorem C5_mode_and_entries_witness :
    mkEM [mkO "per" 1] [mkO "per" 1] calcW "regular" = some emW ∧ emW.mode = "regular" :=
  ⟨by with_unfolding_all rfl,
   (C5_mode_and_entries [mkO "per" 1] [mkO "per" 1] calcW "regular" emW
     (by with_unfolding_all rfl)).1⟩

/-- C4 (refuted): on `em4` every candidate of the head standard index 0 is
dropped by the mandatory-elsewhere pruning while the skip guard is unmet, so
`_recursiveSearch` returns `None` and `findSolution` raises while unpacking. -/
theorem C4_search_returns_none :
    recursiveSearch em4 [0, 1, 2] [0, 1] [] = .ok none ∧
    List.range em4.n_std = [0, 1, 2] ∧ List.range em4.n_test = [0, 1] ∧
    findSolution em4 = .error () := by with_unfolding_all decide

/-- C6 (counterexample): at the head step of `em4` the candidate list after the
mandatory-elsewhere pruning is empty, yet the skip branch is not explored (the
guard is false and the step yields `None` rather than recursing). -/
theorem C6_counterexample :
    (findMatches em4 0 [0, 1]).filter (fun t => !skipTest em4 [0, 1, 2] 0 t) = [] ∧
    skipGuardB em4 [0, 1, 2] (findMatches em4 0 [0, 1]) = false ∧
    recursiveSearch em4 [0, 1, 2] [0, 1] [] = .ok none := by with_unfolding_all decide

theorem skipGuardB_iff (em : EM) (std : List ℕ) (cands : List ℕ) :
    skipGuardB em std cands = true ↔
      cands = [] ∨ ∃ t, cands = [t] ∧ 1 < altCount em std t := by
  match cands with
  | [] => simp [skipGuardB]
  | [t] => simp [skipGuardB, pmaOf]
  | a :: b :: l => simp [skipGuardB]

/-- C6 (amended): the skip branch of a recursion step is explored iff the
candidate list of the head standard index, counted before the
mandatory-elsewhere pruning, is empty, or consists of exactly one candidate
whose test object has more than one nonzero-priority alternative among the
remaining standard pool. -/
theorem C6_amended_guard (em : EM) (std : List ℕ) (curr : ℕ) (test : List ℕ) :
    skipGuardB em std (findMatches em curr test) = true ↔
      findMatches em curr test = [] ∨
      ∃ t, findMatches em curr test = [t] ∧ 1 < altCount em std t :=
  skipGuardB_iff em std (findMatches em curr test)

theorem createSimple_zero (n_std n_test : ℕ) :
    Metrics.createSimple 0 n_std n_test = ⟨0, 0, 0⟩ := by
  simp [Metrics.createSimple]

/-- C8: with an empty standard or empty test collection the search immediately
evaluates the empty matching, `findSolution` returns it, and every metrics
entry (overall and per tag) has `tp = 0`, hence precision, recall and F1 all
zero. -/
theorem C8_empty_collections (em : EM) (h : em.std = [] ∨ em.test = []) :
    findSolution em = .ok [] ∧ tpOf em [] = 0 ∧ evaluateM em [] "" = ⟨0, 0, 0⟩ ∧
    ∀ tag ∈ allowed_tags, evaluateM em [] tag = ⟨0, 0, 0⟩ := by
  have htp : tpOf em [] = 0 := rfl
  have hsearch : recursiveSearch em (List.range em.n_std) (List.range em.n_test) [] =
      .ok (some ((evaluateM em [] "").f1, [])) := by
    rcases h with h | h
    · have h0 : em.n_std = 0 := by simp [EM.n_std, h]
      rw [h0]
      simp [recursiveSearch]
    · have h0 : em.n_test = 0 := by simp [EM.n_test, h]
      rw [h0]
      cases hs : List.range em.n_std with
      | nil => simp [recursiveSearch]
      | cons a l => simp [recursiveSearch]
  refine ⟨?_, htp, ?_, ?_⟩
  · unfold findSolution
    rw [hsearch]
  · have hmem : ("" ∈ allowed_tags) = False := by simp [allowed_tags]
    simp only [evaluateM, hmem, if_false]
    rw [htp, createSimple_zero]
  · intro tag htag
    have hred : reduceM em [] tag = [] := rfl
    simp only [evaluateM, if_pos htag, hred, htp]
    exact createSimple_zero _ _

/-- Witness for C8 at a concrete instance with an empty standard collection. -/
theorem C8_empty_collections_witness :
    (emW8.std = [] ∨ emW8.test = []) ∧ findSolution emW8 = .ok [] :=
  ⟨Or.inl (by with_unfolding_all rfl),
   (C8_empty_collections emW8 (Or.inl (by with_unfolding_all rfl))).1⟩

/-- C1 (counterexample): on `em1` the pairing [(0,0), (1,1)] is a partial
injective pairing that respects the nonzero-priority gate and the
perfect-match mandate, yet its overall F1 (11/20) strictly exceeds the overall
F1 (1/2) of the matching returned by `findSolution`: the mandatory-elsewhere
pruning discards it, so the search is not exact over that class. -/
theorem C1_counterexample :
    findSolution em1 = .ok [(1, 0)] ∧
    isInjectivePairing em1 [(0, 0), (1, 1)] ∧
    respectsGate em1 [(0, 0), (1, 1)] ∧
    respectsMandate em1 [(0, 0), (1, 1)] ∧
    f1Of em1 [(1, 0)] < f1Of em1 [(0, 0), (1, 1)] := by with_unfolding_all decide

/-- C2 (counterexample): on `em2c`, standard 0 and test 0 have priority exactly
1, no other standard object has priority 1 with test 0 and no other test object
has priority 1 with standard 0, yet the returned matching is [(1, 0)]: the skip
branch lets the imperfect competitor of higher quality win on F1, so (0, 0) is
not in the matching. -/
theorem C2_counterexample :
    em2c.m 0 0 = 1 ∧
    (∀ k ∈ List.range em2c.n_std, k ≠ 0 → em2c.m k 0 ≠ 1) ∧
    (∀ j ∈ List.range em2c.n_test, j ≠ 0 → em2c.m 0 j ≠ 1) ∧
    findSolution em2c = .ok [(1, 0)] ∧ ((0, 0) ∉ [((1 : ℕ), (0 : ℕ))]) := by
  with_unfolding_all decide

theorem filter_eq_singleton {α : Type} [DecidableEq α] {l : List α} {p : α → Bool} {a : α}
    (hnd : l.Nodup) (ha : a ∈ l) (h : ∀ x ∈ l, p x = true ↔ x = a) : l.filter p = [a] := by
  induction l with
  | nil => cases ha
  | cons b bs ih =>
    have hnd' := List.nodup_cons.1 hnd
    by_cases hba : b = a
    · subst hba
      have hpb : p b = true := (h b (List.mem_cons_self _ _)).2 rfl
      have hrest : bs.filter p = [] := by
        apply List.filter_eq_nil_iff.2
        intro x hx
        intro hpx
        have hxa : x = b := (h x (List.mem_cons_of_mem _ hx)).1 hpx
        exact hnd'.1 (hxa ▸ hx)
      simp [hpb, hrest]
    · have hpb : p b = false := by
        rcases Bool.eq_false_or_eq_true (p b) with ht | hf
        · exact absurd ((h b (List.mem_cons_self _ _)).1 ht) hba
        · exact hf
      have hamem : a ∈ bs := by
        rcases List.mem_cons.1 ha with h' | h'
        · exact absurd h'.symm hba
        · exact h'
      have := ih hnd'.2 hamem (fun x hx => h x (List.mem_cons_of_mem _ hx))
      simp [hpb, this]

theorem recursiveSearch_extends (em : EM) :
    ∀ (std : List ℕ), std.Nodup → ∀ (test : List ℕ), test.Nodup →
      ∀ (pairs : List (ℕ × ℕ)) (q : ℚ) (res : List (ℕ × ℕ)),
        recursiveSearch em std test pairs = .ok (some (q, res)) →
        ∃ ext, res = pairs ++ ext ∧
          (∀ p ∈ ext, p.1 ∈ std ∧ p.2 ∈ test ∧ em.m p.1 p.2 ≠ 0) ∧
          (ext.map Prod.fst).Nodup ∧ (ext.map Prod.snd).Nodup := by
  intro std
  induction std with
  | nil =>
    intro _ test _ pairs q res h
    simp only [recursiveSearch] at h
    have hres : pairs = res := congrArg Prod.snd (Option.some.inj (Except.ok.inj h))
    subst hres
    exact ⟨[], by simp⟩
  | cons curr rest ih =>
    intro hstd test htest pairs q res h
    have hcr : curr ∉ rest := (List.nodup_cons.1 hstd).1
    have hrest : rest.Nodup := (List.nodup_cons.1 hstd).2
    cases test with
    | nil =>
      simp only [recursiveSearch] at h
      have hres : pairs = res := congrArg Prod.snd (Option.some.inj (Except.ok.inj h))
      subst hres
      exact ⟨[], by simp⟩
    | cons t0 ts =>
      simp only [recursiveSearch] at h
      rcases pyFold_ok_some_mem _ _ _ h with h' | h'
      · exact absurd h' (by simp)
      rcases List.mem_append.1 h' with hmem | hmem
      · rcases List.mem_map.1 hmem with ⟨t, htf, heq⟩
        have ht_cand : t ∈ findMatches em curr (t0 :: ts) := List.mem_of_mem_filter htf
        have ht_test : t ∈ t0 :: ts := findMatches_subset em curr _ t ht_cand
        have ht_nz : em.m curr t ≠ 0 := findMatches_nonzero em curr _ t ht_cand
        obtain ⟨ext, hres, hmemext, hnf, hns⟩ :=
          ih hrest _ (htest.erase t) _ q res heq
        refine ⟨(curr, t) :: ext, ?_, ?_, ?_, ?_⟩
        · rw [hres]
          simp
        · intro p hp
          rcases List.mem_cons.1 hp with hp | hp
          · subst hp
            exact ⟨List.mem_cons_self _ _, ht_test, ht_nz⟩
          · obtain ⟨h1, h2, h3⟩ := hmemext p hp
            exact ⟨List.mem_cons_of_mem _ h1, List.erase_subset _ _ h2, h3⟩
        · simp only [List.map_cons, List.nodup_cons]
          refine ⟨?_, hnf⟩
          intro hc
          rcases List.mem_map.1 hc with ⟨p, hp, hpc⟩
          exact hcr (hpc ▸ (hmemext p hp).1)
        · simp only [List.map_cons, List.nodup_cons]
          refine ⟨?_, hns⟩
          intro hc
          rcases List.mem_map.1 hc with ⟨p, hp, hpc⟩
          exact htest.not_mem_erase (hpc ▸ (hmemext p hp).2.1)
      · rcases Bool.eq_false_or_eq_true
          (skipGuardB em (curr :: rest) (findMatches em curr (t0 :: ts))) with hg | hg
        swap
        · rw [hg] at hmem
          simp at hmem
        · rw [hg] at hmem
          simp at hmem
          obtain ⟨ext, hres, hmemext, hnf, hns⟩ :=
            ih hrest _ htest _ q res hmem.symm
          refine ⟨ext, hres, ?_, hnf, hns⟩
          intro p hp
          obtain ⟨h1, h2, h3⟩ := hmemext p hp
          exact ⟨List.mem_cons_of_mem _ h1, h2, h3⟩

/-- C3: the matching returned by `findSolution` is a partial injective pairing:
every standard index and every test index occurs in at most one pair, and all
indices lie in range of the reordered collections. -/
theorem C3_injective_matching (em : EM) (matching : List (ℕ × ℕ))
    (h : findSolution em = .ok matching) :
    (matching.map Prod.fst).Nodup ∧ (matching.map Prod.snd).Nodup ∧
    ∀ p ∈ matching, p.1 < em.n_std ∧ p.2 < em.n_test := by
  unfold findSolution at h
  cases hr : recursiveSearch em (List.range em.n_std) (List.range em.n_test) [] with
  | error e => rw [hr] at h; cases h
  | ok o =>
    cases o with
    | none => rw [hr] at h; cases h
    | some x =>
      obtain ⟨q, ms⟩ := x
      rw [hr] at h
      have hms : ms = matching := Except.ok.inj h
      subst hms
      obtain ⟨ext, hres, hmemext, hnf, hns⟩ :=
        recursiveSearch_extends em _ (List.nodup_range _) _ (List.nodup_range _) [] q ms hr
      simp only [List.nil_append] at hres
      subst hres
      refine ⟨hnf, hns, ?_⟩
      intro p hp
      obtain ⟨h1, h2, -⟩ := hmemext p hp
      exact ⟨List.mem_range.1 h1, List.mem_range.1 h2⟩

/-- Witness for C3 at a concrete instance. -/
theorem C3_injective_matching_witness :
    findSolution emW = .ok [(0, 0)] ∧ ([((0 : ℕ), (0 : ℕ))].map Prod.fst).Nodup :=
  ⟨by with_unfolding_all decide,
   (C3_injective_matching emW [(0, 0)] (by with_unfolding_all decide)).1⟩

/-- C10: every pair committed by `findSolution` has a nonzero priority entry:
a zero-priority pair is never part of the returned matching. -/
theorem C10_nonzero_pairs (em : EM) (matching : List (ℕ × ℕ))
    (h : findSolution em = .ok matching) :
    ∀ p ∈ matching, em.m p.1 p.2 ≠ 0 := by
  unfold findSolution at h
  cases hr : recursiveSearch em (List.range em.n_std) (List.range em.n_test) [] with
  | error e => rw [hr] at h; cases h
  | ok o =>
    cases o with
    | none => rw [hr] at h; cases h
    | some x =>
      obtain ⟨q, ms⟩ := x
      rw [hr] at h
      have hms : ms = matching := Except.ok.inj h
      subst hms
      obtain ⟨ext, hres, hmemext, -, -⟩ :=
        recursiveSearch_extends em _ (List.nodup_range _) _ (List.nodup_range _) [] q ms hr
      simp only [List.nil_append] at hres
      subst hres
      intro p hp
      exact (hmemext p hp).2.2

/-- Witness for C10 at a concrete instance. -/
theorem C10_nonzero_pairs_witness :
    findSolution emW = .ok [(0, 0)] ∧ emW.m 0 0 ≠ 0 :=
  ⟨by with_unfolding_all decide,
   C10_nonzero_pairs emW [(0, 0)] (by with_unfolding_all decide) (0, 0) (by simp)⟩

theorem recursiveSearch_perfect_mem (em : EM) (i j : ℕ) (hij : em.m i j = 1) :
    ∀ (std : List ℕ), std.Nodup → (∀ k ∈ std, k ≠ i → em.m k j = 0) →
    ∀ (test : List ℕ), test.Nodup → (∀ u ∈ test, u ≠ j → em.m i u ≠ 1) →
      i ∈ std → j ∈ test →
      ∀ (pairs : List (ℕ × ℕ)) (q : ℚ) (res : List (ℕ × ℕ)),
        recursiveSearch em std test pairs = .ok (some (q, res)) →
        (i, j) ∈ res := by
  intro std
  induction std with
  | nil =>
    intro _ _ test _ _ hi
    cases hi
  | cons curr rest ih =>
    intro hstd hstdj test htest htesti hi hj pairs q res h
    have hrest : rest.Nodup := (List.nodup_cons.1 hstd).2
    cases test with
    | nil => cases hj
    | cons t0 ts =>
      by_cases hci : curr = i
      · subst hci
        have hperf : (t0 :: ts).filter (fun u => em.m curr u == 1) = [j] := by
          apply filter_eq_singleton htest hj
          intro u hu
          constructor
          · intro hbeq
            by_contra hne
            exact htesti u hu hne (by simpa using hbeq)
          · intro he
            subst he
            simp [hij]
        have hcands : findMatches em curr (t0 :: ts) = [j] := by
          simp [findMatches, hperf]
        have hskip : skipTest em (curr :: rest) curr j = false := by
          simp [skipTest, hij]
        have halt : altCount em (curr :: rest) j = 1 := by
          have hflt : (curr :: rest).filter (fun k => em.m k j != 0) = [curr] := by
            apply filter_eq_singleton hstd (List.mem_cons_self _ _)
            intro k hk
            constructor
            · intro hbne
              by_contra hne
              have h0 : em.m k j = 0 := hstdj k hk hne
              simp [h0] at hbne
            · intro he
              subst he
              simp [hij]
          simp [altCount, hflt]
        have hguard : skipGuardB em (curr :: rest) [j] = false := by
          simp [skipGuardB, pmaOf, halt]
        simp only [recursiveSearch, hcands] at h
        rw [hguard] at h
        simp only [List.filter_cons, List.filter_nil, hskip, Bool.not_false, if_true,
          eq_self_iff_true, Bool.false_eq_true, if_false, List.map_cons, List.map_nil,
          List.append_nil] at h
        rcases pyFold_ok_some_mem _ _ _ h with h' | h'
        · exact absurd h' (by simp)
        simp only [List.mem_singleton] at h'
        obtain ⟨ext, hres, -, -, -⟩ :=
          recursiveSearch_extends em rest hrest _ (htest.erase j) _ q res h'.symm
        rw [hres]
        simp
      · have hi' : i ∈ rest := by
          rcases List.mem_cons.1 hi with h' | h'
          · exact absurd h'.symm hci
          · exact h'
        have hcurr0 : em.m curr j = 0 := hstdj curr (List.mem_cons_self _ _) hci
        simp only [recursiveSearch] at h
        rcases pyFold_ok_some_mem _ _ _ h with h' | h'
        · exact absurd h' (by simp)
        rcases List.mem_append.1 h' with hmem | hmem
        · rcases List.mem_map.1 hmem with ⟨t, htf, heq⟩
          have ht_cand : t ∈ findMatches em curr (t0 :: ts) := List.mem_of_mem_filter htf
          have ht_nz : em.m curr t ≠ 0 := findMatches_nonzero em curr _ t ht_cand
          have htj : t ≠ j := by
            intro he
            subst he
            exact ht_nz hcurr0
          have hjmem : j ∈ (t0 :: ts).erase t := (List.mem_erase_of_ne (Ne.symm htj)).2 hj
          exact ih hrest (fun k hk => hstdj k (List.mem_cons_of_mem _ hk)) _
            (htest.erase t)
            (fun u hu => htesti u (List.erase_subset _ _ hu))
            hi' hjmem _ q res heq
        · rcases Bool.eq_false_or_eq_true
            (skipGuardB em (curr :: rest) (findMatches em curr (t0 :: ts))) with hg | hg
          · rw [hg] at hmem
            simp at hmem
            exact ih hrest (fun k hk => hstdj k (List.mem_cons_of_mem _ hk)) _
              htest htesti hi' hj _ q res hmem.symm
          · rw [hg] at hmem
            simp at hmem

/-- C2 (amended): if standard `i` and test `j` have priority exactly 1, every
other standard object has priority 0 with `j` (not merely priority different
from 1), and no other test object has priority 1 with `i`, then the returned
matching contains `(i, j)` whenever `findSolution` returns at all. -/
theorem C2_amended_perfect_pair (em : EM) (i j : ℕ)
    (hij : em.m i j = 1)
    (hstdj : ∀ k ∈ List.range em.n_std, k ≠ i → em.m k j = 0)
    (htesti : ∀ u ∈ List.range em.n_test, u ≠ j → em.m i u ≠ 1)
    (hi : i < em.n_std) (hj : j < em.n_test)
    (matching : List (ℕ × ℕ)) (h : findSolution em = .ok matching) :
    (i, j) ∈ matching := by
  unfold findSolution at h
  cases hr : recursiveSearch em (List.range em.n_std) (List.range em.n_test) [] with
  | error e => rw [hr] at h; cases h
  | ok o =>
    cases o with
    | none => rw [hr] at h; cases h
    | some x =>
      obtain ⟨q, ms⟩ := x
      rw [hr] at h
      have hms : ms = matching := Except.ok.inj h
      subst hms
      exact recursiveSearch_perfect_mem em i j hij _ (List.nodup_range _) hstdj _
        (List.nodup_range _) htesti (List.mem_range.2 hi) (List.mem_range.2 hj) [] q ms hr

/-- Witness for the amended C2 at a concrete instance. -/
theorem C2_amended_perfect_pair_witness :
    emW.m 0 0 = 1 ∧ findSolution emW = .ok [(0, 0)] ∧ ((0, 0) ∈ [((0 : ℕ), (0 : ℕ))]) :=
  ⟨by with_unfolding_all decide, by with_unfolding_all decide,
   C2_amended_perfect_pair emW 0 0 (by with_unfolding_all decide)
     (by with_unfolding_all decide) (by with_unfolding_all decide)
     (by with_unfolding_all decide) (by with_unfolding_all decide)
     [(0, 0)] (by with_unfolding_all decide)⟩

theorem forall₂_map_map {α β γ : Type} {R : β → γ → Prop} (l : List α) (f : α → β) (g : α → γ)
    (h : ∀ a ∈ l, R (f a) (g a)) : List.Forall₂ R (l.map f) (l.map g) := by
  induction l with
  | nil => exact List.Forall₂.nil
  | cons a as ih =>
    exact List.Forall₂.cons (h a (List.mem_cons_self _ _))
      (ih (fun b hb => h b (List.mem_cons_of_mem _ hb)))

theorem pyFold_spec (em : EM) :
    ∀ (rs : List SResult) (es : List (List (List (ℕ × ℕ)))),
      List.Forall₂ (ResSpec em) rs es →
      ∀ (acc : Option (ℚ × List (ℕ × ℕ))) (aex : List (List (ℕ × ℕ))),
        AccSpec em acc aex →
        ResSpec em (pyFold rs acc) (aex ++ es.flatten) := by
  intro rs es hf
  induction hf with
  | nil =>
    intro acc aex hacc acc' h'
    simp only [pyFold] at h'
    have haa : acc = acc' := Except.ok.inj h'
    subst haa
    simpa using hacc
  | @cons r e rs' es' hrel htail ih =>
    intro acc aex hacc acc' h'
    cases r with
    | error u =>
      simp only [pyFold] at h'
      exact absurd h' (by simp)
    | ok o =>
      cases o with
      | none =>
        cases acc with
        | none =>
          have hb : e = [] := (hrel none rfl).1 rfl
          have haex : aex = [] := hacc.1 rfl
          subst hb
          subst haex
          simp only [pyFold] at h'
          have hres := ih none [] ⟨fun _ => rfl, fun q res hq => Option.noConfusion hq⟩ acc' h'
          simpa using hres
        | some av =>
          simp only [pyFold] at h'
          exact absurd h' (by simp)
      | some x =>
        cases acc with
        | none =>
          have haex : aex = [] := hacc.1 rfl
          subst haex
          simp only [pyFold] at h'
          have hax : AccSpec em (some x) e := hrel (some x) rfl
          have hres := ih (some x) e hax acc' h'
          simpa using hres
        | some av =>
          simp only [pyFold] at h'
          have hax : AccSpec em (some x) e := hrel (some x) rfl
          have hnew : AccSpec em (some (if x.1 > av.1 then x else av)) (aex ++ e) := by
            refine ⟨fun hc => by by_cases hgt : x.1 > av.1 <;> simp [hgt] at hc, ?_⟩
            intro q res hqres
            by_cases hgt : x.1 > av.1
            · rw [if_pos hgt] at hqres
              have hx : x = (q, res) := Option.some.inj hqres
              obtain ⟨hm, hq, hbd⟩ := hax.2 q res (by rw [hx])
              refine ⟨List.mem_append_right _ hm, hq, ?_⟩
              intro P hP
              rcases List.mem_append.1 hP with hP | hP
              · obtain ⟨-, hqa, hbda⟩ := hacc.2 av.1 av.2 rfl
                have h1 : f1Of em P ≤ av.1 := hbda P hP
                have h2 : av.1 ≤ q := by
                  have := le_of_lt hgt
                  rw [hx] at this
                  exact this
                exact le_trans h1 h2
              · exact hbd P hP
            · rw [if_neg hgt] at hqres
              have hx : av = (q, res) := Option.some.inj hqres
              obtain ⟨hm, hq, hbd⟩ := hacc.2 q res (by rw [hx])
              refine ⟨List.mem_append_left _ hm, hq, ?_⟩
              intro P hP
              rcases List.mem_append.1 hP with hP | hP
              · exact hbd P hP
              · obtain ⟨-, hqa, hbda⟩ := hax.2 x.1 x.2 rfl
                have h1 : f1Of em P ≤ x.1 := hbda P hP
                have h2 : x.1 ≤ q := by
                  have := not_lt.1 hgt
                  rw [hx] at this
                  exact this
                exact le_trans h1 h2
          have hres := ih _ _ hnew acc' h'
          have hassoc : (aex ++ e) ++ es'.flatten = aex ++ (e :: es').flatten := by
            simp [List.append_assoc]
          rwa [hassoc] at hres

theorem recursiveSearch_explored (em : EM) :
    ∀ (std test : List ℕ) (pairs : List (ℕ × ℕ)),
      ResSpec em (recursiveSearch em std test pairs)
        (exploredMatchings em std test pairs) := by
  intro std
  induction std with
  | nil =>
    intro test pairs acc h
    simp only [recursiveSearch] at h
    have hacc : some ((evaluateM em pairs "").f1, pairs) = acc := Except.ok.inj h
    subst hacc
    refine ⟨fun hc => Option.noConfusion hc, ?_⟩
    intro q res hqr
    have hx : ((evaluateM em pairs "").f1, pairs) = (q, res) := Option.some.inj hqr
    have hq : (evaluateM em pairs "").f1 = q := congrArg Prod.fst hx
    have hres : pairs = res := congrArg Prod.snd hx
    subst hres
    simp only [exploredMatchings]
    refine ⟨List.mem_singleton.2 rfl, hq.symm, ?_⟩
    intro P hP
    have hPp : P = pairs := List.mem_singleton.1 hP
    subst hPp
    exact le_of_eq hq
  | cons curr rest ih =>
    intro test pairs
    cases test with
    | nil =>
      intro acc h
      simp only [recursiveSearch] at h
      have hacc : some ((evaluateM em pairs "").f1, pairs) = acc := Except.ok.inj h
      subst hacc
      refine ⟨fun hc => Option.noConfusion hc, ?_⟩
      intro q res hqr
      have hx : ((evaluateM em pairs "").f1, pairs) = (q, res) := Option.some.inj hqr
      have hq : (evaluateM em pairs "").f1 = q := congrArg Prod.fst hx
      have hres : pairs = res := congrArg Prod.snd hx
      subst hres
      simp only [exploredMatchings]
      refine ⟨List.mem_singleton.2 rfl, hq.symm, ?_⟩
      intro P hP
      have hPp : P = pairs := List.mem_singleton.1 hP
      subst hPp
      exact le_of_eq hq
    | cons t0 ts =>
      have hforall : List.Forall₂ (ResSpec em)
          ((((findMatches em curr (t0 :: ts)).filter
              (fun t => !skipTest em (curr :: rest) curr t)).map
            (fun t => recursiveSearch em rest ((t0 :: ts).erase t) (pairs ++ [(curr, t)]))) ++
            (if skipGuardB em (curr :: rest) (findMatches em curr (t0 :: ts)) then
              [recursiveSearch em rest (t0 :: ts) pairs] else []))
          ((((findMatches em curr (t0 :: ts)).filter
              (fun t => !skipTest em (curr :: rest) curr t)).map
            (fun t => exploredMatchings em rest ((t0 :: ts).erase t) (pairs ++ [(curr, t)]))) ++
            (if skipGuardB em (curr :: rest) (findMatches em curr (t0 :: ts)) then
              [exploredMatchings em rest (t0 :: ts) pairs] else [])) := by
        apply List.rel_append
        · exact forall₂_map_map _ _ _ (fun t _ => ih _ _)
        · rcases Bool.eq_false_or_eq_true
            (skipGuardB em (curr :: rest) (findMatches em curr (t0 :: ts))) with hg | hg
          · rw [hg]
            simp only [if_true]
            exact List.Forall₂.cons (ih _ _) List.Forall₂.nil
          · rw [hg]
            simp only [Bool.false_eq_true, if_false]
            exact List.Forall₂.nil
      have hstep := pyFold_spec em _ _ hforall none []
        ⟨fun _ => rfl, fun q res hq => Option.noConfusion hq⟩
      intro acc h
      have h2 := hstep acc (by simpa only [recursiveSearch] using h)
      have hsets : (([] : List (List (ℕ × ℕ))) ++
          (((((findMatches em curr (t0 :: ts)).filter
              (fun t => !skipTest em (curr :: rest) curr t)).map
            (fun t => exploredMatchings em rest ((t0 :: ts).erase t) (pairs ++ [(curr, t)]))) ++
            (if skipGuardB em (curr :: rest) (findMatches em curr (t0 :: ts)) then
              [exploredMatchings em rest (t0 :: ts) pairs] else [])).flatten)) =
          exploredMatchings em (curr :: rest) (t0 :: ts) pairs := by
        simp only [exploredMatchings, List.nil_append, List.flatten_append]
        congr 1
        rcases Bool.eq_false_or_eq_true
          (skipGuardB em (curr :: rest) (findMatches em curr (t0 :: ts))) with hg | hg <;>
          rw [hg] <;> simp
      rwa [hsets] at h2

/-- C1 (amended): the matching returned by `findSolution` is one of the
matchings evaluated by the pruned recursive search, and its overall F1 is
maximal among all of them; optimality over the whole class of
gate-and-mandate-respecting pairings fails (see the counterexample), because the
mandatory-elsewhere pruning and the skip-branch guard can both exclude
higher-F1 pairings of that class from the explored set. -/
theorem C1_amended_max_explored (em : EM) (matching : List (ℕ × ℕ))
    (h : findSolution em = .ok matching) :
    matching ∈ exploredMatchings em (List.range em.n_std) (List.range em.n_test) [] ∧
    f1Of em matching = (evaluateM em matching "").f1 ∧
    ∀ P ∈ exploredMatchings em (List.range em.n_std) (List.range em.n_test) [],
      f1Of em P ≤ f1Of em matching := by
  unfold findSolution at h
  cases hr : recursiveSearch em (List.range em.n_std) (List.range em.n_test) [] with
  | error e => rw [hr] at h; cases h
  | ok o =>
    cases o with
    | none => rw [hr] at h; cases h
    | some x =>
      obtain ⟨q, ms⟩ := x
      rw [hr] at h
      have hms : ms = matching := Except.ok.inj h
      subst hms
      obtain ⟨hm, hq, hbd⟩ :=
        (recursiveSearch_explored em (List.range em.n_std) (List.range em.n_test) []
          (some (q, ms)) hr).2 q ms rfl
      refine ⟨hm, rfl, ?_⟩
      intro P hP
      have hle := hbd P hP
      rw [hq] at hle
      exact hle

/-- Witness for the amended C1 at a concrete instance. -/
theorem C1_amended_max_explored_witness :
    findSolution emW = .ok [(0, 0)] ∧
    [((0 : ℕ), (0 : ℕ))] ∈ exploredMatchings emW (List.range emW.n_std) (List.range emW.n_test) [] :=
  ⟨by with_unfolding_all decide,
   (C1_amended_max_explored emW [(0, 0)] (by with_unfolding_all decide)).1⟩

theorem takeWhile_ne_per : allowed_tags.takeWhile (fun t => t != "per") = [] := by decide

theorem takeWhile_ne_loc : allowed_tags.takeWhile (fun t => t != "loc") = ["per"] := by decide

theorem takeWhile_ne_org :
    allowed_tags.takeWhile (fun t => t != "org") = ["per", "loc"] := by decide

theorem takeWhile_ne_locorg :
    allowed_tags.takeWhile (fun t => t != "locorg") = ["per", "loc", "org"] := by decide

theorem filter_or_perm {α : Type} (l : List α) (p q : α → Bool)
    (hpq : ∀ x ∈ l, ¬(p x = true ∧ q x = true)) :
    (l.filter (fun x => p x || q x)).Perm (l.filter p ++ l.filter q) := by
  induction l with
  | nil => simp
  | cons a as ih =>
    have hd := hpq a (List.mem_cons_self _ _)
    have ih' := ih (fun x hx => hpq x (List.mem_cons_of_mem _ hx))
    rcases Bool.eq_false_or_eq_true (p a) with hp | hp
    · have hq : q a = false := by
        rcases Bool.eq_false_or_eq_true (q a) with hq | hq
        · exact absurd ⟨hp, hq⟩ hd
        · exact hq
      rw [List.filter_cons_of_pos (by simp [hp]), List.filter_cons_of_pos hp,
        List.filter_cons_of_neg (by simp [hq])]
      exact List.Perm.cons a ih'
    · rcases Bool.eq_false_or_eq_true (q a) with hq | hq
      · rw [List.filter_cons_of_pos (by simp [hp, hq]), List.filter_cons_of_neg (by simp [hp]),
          List.filter_cons_of_pos hq]
        exact (List.Perm.cons a ih').trans List.perm_middle.symm
      · rw [List.filter_cons_of_neg (by simp [hp, hq]), List.filter_cons_of_neg (by simp [hp]),
          List.filter_cons_of_neg (by simp [hq])]
        exact ih'

/-- C7: the reordered collection is exactly the input objects with a recognized
tag, laid out as the four tag blocks in the fixed tag order, each block id-sorted
and consisting of objects of its tag, with adjacent start/end offsets covering
the whole reordered array. -/
theorem C7_partition (l : List Obj) :
    (reorder l).Perm (l.filter (fun x => decide (x.tag ∈ allowed_tags))) ∧
    reorder l =
      tagObjects "per" l ++ tagObjects "loc" l ++ tagObjects "org" l ++ tagObjects "locorg" l ∧
    (∀ tag, (∀ x ∈ tagObjects tag l, x.tag = tag) ∧
      (tagObjects tag l).Sorted (fun a b => a.id ≤ b.id)) ∧
    tagStartIn l "per" = 0 ∧
    tagEndIn l "per" = tagStartIn l "loc" ∧
    tagEndIn l "loc" = tagStartIn l "org" ∧
    tagEndIn l "org" = tagStartIn l "locorg" ∧
    tagEndIn l "locorg" = (reorder l).length := by
  have hre : reorder l = tagObjects "per" l ++ (tagObjects "loc" l ++
      (tagObjects "org" l ++ tagObjects "locorg" l)) := by
    simp [reorder, allowed_tags]
  have h1 : (tagObjects "per" l).Perm (l.filter (fun x => x.tag == "per")) :=
    List.perm_insertionSort _ _
  have h2 : (tagObjects "loc" l).Perm (l.filter (fun x => x.tag == "loc")) :=
    List.perm_insertionSort _ _
  have h3 : (tagObjects "org" l).Perm (l.filter (fun x => x.tag == "org")) :=
    List.perm_insertionSort _ _
  have h4 : (tagObjects "locorg" l).Perm (l.filter (fun x => x.tag == "locorg")) :=
    List.perm_insertionSort _ _
  have hGO : (l.filter (fun x => x.tag == "org" || x.tag == "locorg")).Perm
      (l.filter (fun x => x.tag == "org") ++ l.filter (fun x => x.tag == "locorg")) := by
    apply filter_or_perm
    intro x _ h
    obtain ⟨ha, hb⟩ := h
    simp only [beq_iff_eq] at ha hb
    rw [ha] at hb
    exact absurd hb (by decide)
  have hLOG : (l.filter (fun x => x.tag == "loc" || (x.tag == "org" || x.tag == "locorg"))).Perm
      (l.filter (fun x => x.tag == "loc") ++ (l.filter (fun x => x.tag == "org") ++
        l.filter (fun x => x.tag == "locorg"))) := by
    refine (filter_or_perm l _ _ ?_).trans (List.Perm.append_left _ hGO)
    intro x _ h
    obtain ⟨ha, hb⟩ := h
    simp only [beq_iff_eq, Bool.or_eq_true] at ha hb
    rcases hb with hb | hb <;> rw [ha] at hb <;> exact absurd hb (by decide)
  have hPLOG : (l.filter (fun x => x.tag == "per" ||
      (x.tag == "loc" || (x.tag == "org" || x.tag == "locorg")))).Perm
      (l.filter (fun x => x.tag == "per") ++ (l.filter (fun x => x.tag == "loc") ++
        (l.filter (fun x => x.tag == "org") ++ l.filter (fun x => x.tag == "locorg")))) := by
    refine (filter_or_perm l _ _ ?_).trans (List.Perm.append_left _ hLOG)
    intro x _ h
    obtain ⟨ha, hb⟩ := h
    simp only [beq_iff_eq, Bool.or_eq_true] at ha hb
    rcases hb with hb | hb | hb <;> rw [ha] at hb <;> exact absurd hb (by decide)
  have hcong : l.filter (fun x => decide (x.tag ∈ allowed_tags)) =
      l.filter (fun x => x.tag == "per" ||
        (x.tag == "loc" || (x.tag == "org" || x.tag == "locorg"))) := by
    apply List.filter_congr
    intro x _
    rw [Bool.eq_iff_iff]
    simp [allowed_tags]
  refine ⟨?_, ?_, ?_, ?_, ?_, ?_, ?_, ?_⟩
  · rw [hre, hcong]
    exact (List.Perm.append h1 (List.Perm.append h2 (List.Perm.append h3 h4))).trans hPLOG.symm
  · rw [hre]
    simp [List.append_assoc]
  · intro tag
    constructor
    · intro x hx
      have hx' : x ∈ l.filter (fun y => y.tag == tag) := (List.mem_insertionSort _).1 hx
      simpa using List.of_mem_filter hx'
    · exact List.sorted_insertionSort _ _
  · simp [tagStartIn, takeWhile_ne_per]
  · simp [tagEndIn, tagStartIn, takeWhile_ne_per, takeWhile_ne_loc]
  · simp [tagEndIn, tagStartIn, takeWhile_ne_loc, takeWhile_ne_org]
  · simp [tagEndIn, tagStartIn, takeWhile_ne_org, takeWhile_ne_locorg]
    omega
  · rw [hre]
    simp [tagEndIn, tagStartIn, takeWhile_ne_locorg, List.length_append]
    omega

/-- Witness for C7 at a concrete collection containing an object with an
unrecognized tag, which is silently excluded. -/
theorem C7_partition_witness :
    reorder [mkO "loc" 2, mkO "per" 1, mkO "x" 3] = [mkO "per" 1, mkO "loc" 2] ∧
    tagStartIn [mkO "loc" 2, mkO "per" 1, mkO "x" 3] "per" = 0 :=
  ⟨by with_unfolding_all decide,
   (C7_partition [mkO "loc" 2, mkO "per" 1, mkO "x" 3]).2.2.2.1⟩
